import Mathlib

/-!
Verification of the closure expansion engine of `cluster_creator` (src/main.py).

The engine expands a seed SNOMED code into the full set of codes it subsumes,
using two in-memory relations loaded from reference tables:

* `trans_dict`  : SuperTypeID -> set of SubtypeID   (subtype hierarchy, loaded by
  `load_transitive_closure_efficient` from (SuperTypeID, SubtypeID) rows);
* `history_dict`: OLDCUI -> set of NEWCUI           (redirect/history map, loaded by
  `load_history_table_efficient` from (OLDCUI, NEWCUI) rows).

Both loaders build a `Dict[str, Set[str]]` by unioning the value of every row
whose key matches; we therefore model each map by its underlying list of
(key, value) rows, and `RelMap.get m c` is the set the loaded dictionary would
return for `dict.get(c, set())`.

`expand_codes_for_concept` (src/main.py lines 90-116) is modelled by
`expand_codes_for_concept` below; its `while to_process:` loop is the
well-founded recursion `expandLoop`, whose termination measure is the number of
codes of the finite value-universe not yet in `expanded`.  The per-cluster part
of `process_csv_to_table` (src/main.py lines 118-161) is modelled by
`cluster_codes`.
-/

/-- Codes are opaque strings, compared only for equality. -/
abbrev Code := String

/-- A relation table: the list of (key, value) rows from which one of the two
dictionaries (`trans_dict` or `history_dict`) is built. -/
abbrev RelMap := List (Code × Code)

/-- The loaded dictionary lookup: `RelMap.get m c` is the set of values of all
rows of `m` whose key is `c` — exactly `m_dict.get(c, set())` for the dictionary
built by the loaders, which union values per key.  An absent key yields the
empty set, never an error. -/
def RelMap.get (m : RelMap) (c : Code) : Finset Code :=
  ((m.filter (fun p => p.1 == c)).map Prod.snd).toFinset

/-- All values appearing in a relation table: the finite universe from which
children and replacements are drawn. -/
def RelMap.values (m : RelMap) : Finset Code :=
  (m.map Prod.snd).toFinset

/-- One iteration body of the fixpoint loop (src/main.py lines 104-110): for
every `current_code` of `to_process`, every child of `current_code` together
with the history replacements of that child. -/
def expandStep (history_dict trans_dict : RelMap) (to_process : Finset Code) : Finset Code :=
  to_process.biUnion (fun current_code =>
    (RelMap.get trans_dict current_code).biUnion (fun child =>
      insert child (RelMap.get history_dict child)))

/-- The `while to_process:` loop of `expand_codes_for_concept` (src/main.py
lines 103-115): compute `new_codes` from the frontier, subtract the codes
already seen, stop if nothing new, otherwise merge and recurse with the new
codes as the next frontier. -/
def expandLoop (history_dict trans_dict : RelMap) (expanded to_process : Finset Code) :
    Finset Code :=
  if hnew : expandStep history_dict trans_dict to_process \ expanded = ∅ then
    expanded
  else
    expandLoop history_dict trans_dict
      (expanded ∪ (expandStep history_dict trans_dict to_process \ expanded))
      (expandStep history_dict trans_dict to_process \ expanded)
termination_by
  ((RelMap.values trans_dict ∪ RelMap.values history_dict) \ expanded).card
decreasing_by
  apply Finset.card_lt_card
  obtain ⟨x, hx⟩ := Finset.nonempty_iff_ne_empty.mpr hnew
  have hxs : x ∈ expandStep history_dict trans_dict to_process := (Finset.mem_sdiff.mp hx).1
  have hxe : x ∉ expanded := (Finset.mem_sdiff.mp hx).2
  have hxu : x ∈ RelMap.values trans_dict ∪ RelMap.values history_dict := by
    simp only [expandStep, Finset.mem_biUnion] at hxs
    obtain ⟨cur, _, child, hchild, hxi⟩ := hxs
    have hval : ∀ (m : RelMap) (c : Code), RelMap.get m c ⊆ RelMap.values m := by
      intro m c y hy
      simp only [RelMap.get, List.mem_toFinset, List.mem_map] at hy
      obtain ⟨q, hq, rfl⟩ := hy
      simp only [RelMap.values, List.mem_toFinset, List.mem_map]
      exact ⟨q, (List.mem_filter.mp hq).1, rfl⟩
    rcases Finset.mem_insert.mp hxi with rfl | hxi
    · exact Finset.mem_union_left _ (hval _ _ hchild)
    · exact Finset.mem_union_right _ (hval _ _ hxi)
  constructor
  · intro y hy
    rw [Finset.mem_sdiff] at hy ⊢
    exact ⟨hy.1, fun hye => hy.2 (Finset.mem_union_left _ hye)⟩
  · intro hsub
    have hxmem : x ∈ (RelMap.values trans_dict ∪ RelMap.values history_dict) \ expanded :=
      Finset.mem_sdiff.mpr ⟨hxu, hxe⟩
    have := hsub hxmem
    rw [Finset.mem_sdiff] at this
    exact this.2 (Finset.mem_union_right _ hx)

/-- Model of `expand_codes_for_concept` (src/main.py lines 90-116): start from
the base set `{code} ∪ history_dict.get(code, ∅)` and run the fixpoint loop
with both `expanded_codes` and `to_process` initialised to it. -/
def expand_codes_for_concept (code : Code) (history_dict trans_dict : RelMap) :
    Finset Code :=
  expandLoop history_dict trans_dict
    (insert code (RelMap.get history_dict code))
    (insert code (RelMap.get history_dict code))

/-- Fuel-indexed version of the loop, structurally recursive: `none` means the
loop was still running when the fuel ran out.  Used both to state termination
of the `while` loop and to evaluate the loop on concrete inputs. -/
def expandLoopFuel (history_dict trans_dict : RelMap) :
    Nat → Finset Code → Finset Code → Option (Finset Code)
  | 0, _, _ => none
  | Nat.succ n, expanded, to_process =>
    if expandStep history_dict trans_dict to_process \ expanded = ∅ then
      some expanded
    else
      expandLoopFuel history_dict trans_dict n
        (expanded ∪ (expandStep history_dict trans_dict to_process \ expanded))
        (expandStep history_dict trans_dict to_process \ expanded)

/-- A code is justified by a set when it is a child of a different code of the
set, or a history replacement of such a child. -/
def justifies (history_dict trans_dict : RelMap) (S : Finset Code) (x : Code) : Prop :=
  ∃ p ∈ S, p ≠ x ∧ ∃ ch ∈ RelMap.get trans_dict p,
    (x = ch ∨ x ∈ RelMap.get history_dict ch)

/-- Expansion of a whole seed set: one `expand_codes_for_concept` call per
seed, results united.  This is how a collection of seeds is expanded (the
program issues one call per seed code). -/
def expand_union (seeds : Finset Code) (history_dict trans_dict : RelMap) : Finset Code :=
  seeds.biUnion (fun c => expand_codes_for_concept c history_dict trans_dict)

/-- One row of the input CSV as consumed by `process_csv_to_table`: only the
three columns the function reads.  A missing Code cell (pandas NaN under
`dtype=str`) is modelled as the empty string, which the source treats the same
way as an empty code (`if not base_code or pd.isna(base_code)`). -/
structure CsvRow where
  code_system : String
  aliases : String
  code : String
deriving DecidableEq

/-- Model of the Python `str.upper()` call: uppercase every character. -/
def pythonUpper (s : String) : String :=
  String.mk (s.data.map Char.toUpper)

/-- Model of the Python `str.strip()` call: drop leading and trailing
whitespace. -/
def pythonStrip (s : String) : String :=
  String.mk (((s.data.dropWhile Char.isWhitespace).reverse.dropWhile
    Char.isWhitespace).reverse)

/-- The rows whose Code System column, uppercased, is SNOMED CT
(src/main.py lines 135-136). -/
def snomed_rows (rows : List CsvRow) : List CsvRow :=
  rows.filter (fun r => pythonUpper r.code_system == "SNOMED CT")

/-- The SNOMED rows of one cluster, identified by the Aliases column
(src/main.py line 144). -/
def cluster_rows (rows : List CsvRow) (cluster_id : String) : List CsvRow :=
  (snomed_rows rows).filter (fun r => r.aliases == cluster_id)

/-- The set of codes `process_csv_to_table` emits for one cluster
(src/main.py lines 143-161): take the first row of the cluster, skip the
cluster if its code is missing, otherwise strip the code and expand it.  The
rows written are the sorted elements of this set, one per code. -/
def cluster_codes (rows : List CsvRow) (cluster_id : String)
    (history_dict trans_dict : RelMap) : Finset Code :=
  match cluster_rows rows cluster_id with
  | [] => ∅
  | r :: _ =>
    if r.code = "" then ∅
    else expand_codes_for_concept (pythonStrip r.code) history_dict trans_dict

/-- Written from the words of the spec, for comparison with `cluster_codes`:
the closure of a cluster is the union of the individual closures of each of
its seeds (every seed row of the cluster contributes, not only the first). -/
def spec_cluster_union (rows : List CsvRow) (cluster_id : String)
    (history_dict trans_dict : RelMap) : Finset Code :=
  ((cluster_rows rows cluster_id).map
    (fun r => expand_codes_for_concept (pythonStrip r.code)
      history_dict trans_dict)).foldr
    (fun s acc => s ∪ acc) ∅

lemma RelMap.get_subset_values (m : RelMap) (c : Code) :
    RelMap.get m c ⊆ RelMap.values m := by
  intro x hx
  simp only [RelMap.get, List.mem_toFinset, List.mem_map] at hx
  obtain ⟨p, hp, rfl⟩ := hx
  simp only [RelMap.values, List.mem_toFinset, List.mem_map]
  exact ⟨p, (List.mem_filter.mp hp).1, rfl⟩

lemma expandStep_subset_values (history_dict trans_dict : RelMap) (p : Finset Code) :
    expandStep history_dict trans_dict p ⊆
      RelMap.values trans_dict ∪ RelMap.values history_dict := by
  intro x hx
  simp only [expandStep, Finset.mem_biUnion] at hx
  obtain ⟨cur, _, child, hchild, hx⟩ := hx
  rcases Finset.mem_insert.mp hx with rfl | hx
  · exact Finset.mem_union_left _ (RelMap.get_subset_values _ _ hchild)
  · exact Finset.mem_union_right _ (RelMap.get_subset_values _ _ hx)

lemma expandStep_mono (history_dict trans_dict : RelMap) {p q : Finset Code}
    (hpq : p ⊆ q) :
    expandStep history_dict trans_dict p ⊆ expandStep history_dict trans_dict q :=
  Finset.biUnion_subset_biUnion_of_subset_left _ hpq

lemma expandStep_union (history_dict trans_dict : RelMap) (p q : Finset Code) :
    expandStep history_dict trans_dict (p ∪ q) =
      expandStep history_dict trans_dict p ∪ expandStep history_dict trans_dict q := by
  ext x
  simp only [expandStep, Finset.mem_biUnion, Finset.mem_union]
  constructor
  · rintro ⟨cur, hcur | hcur, hx⟩
    · exact Or.inl ⟨cur, hcur, hx⟩
    · exact Or.inr ⟨cur, hcur, hx⟩
  · rintro (⟨cur, hcur, hx⟩ | ⟨cur, hcur, hx⟩)
    · exact ⟨cur, Or.inl hcur, hx⟩
    · exact ⟨cur, Or.inr hcur, hx⟩

lemma expandStep_empty (history_dict trans_dict : RelMap) :
    expandStep history_dict trans_dict ∅ = ∅ :=
  rfl

/-- The fuelled loop, when it finishes, computes exactly the well-founded loop. -/
lemma expandLoopFuel_sound (history_dict trans_dict : RelMap) :
    ∀ (n : Nat) (expanded to_process R : Finset Code),
      expandLoopFuel history_dict trans_dict n expanded to_process = some R →
      expandLoop history_dict trans_dict expanded to_process = R := by
  intro n
  induction n with
  | zero => intro e p R h; simp [expandLoopFuel] at h
  | succ n ih =>
    intro e p R h
    rw [expandLoopFuel] at h
    rw [expandLoop]
    by_cases hc : expandStep history_dict trans_dict p \ e = ∅
    · rw [if_pos hc] at h
      rw [dif_pos hc]
      exact Option.some.inj h
    · rw [if_neg hc] at h
      rw [dif_neg hc]
      exact ih _ _ _ h

/-- The fuelled loop always finishes when given enough fuel: the measure of the
well-founded loop bounds the number of iterations. -/
lemma expandLoopFuel_terminates (history_dict trans_dict : RelMap) :
    ∀ (k : Nat) (expanded to_process : Finset Code),
      ((RelMap.values trans_dict ∪ RelMap.values history_dict) \ expanded).card ≤ k →
      ∃ R, expandLoopFuel history_dict trans_dict (k + 1) expanded to_process = some R := by
  intro k
  induction k with
  | zero =>
    intro e p hk
    refine ⟨e, ?_⟩
    rw [expandLoopFuel]
    rw [if_pos ?_]
    by_contra hne
    obtain ⟨x, hx⟩ := Finset.nonempty_iff_ne_empty.mpr hne
    have hxs := (Finset.mem_sdiff.mp hx).1
    have hxe := (Finset.mem_sdiff.mp hx).2
    have hxu := expandStep_subset_values history_dict trans_dict p hxs
    have hcard : 0 <
        ((RelMap.values trans_dict ∪ RelMap.values history_dict) \ e).card :=
      Finset.card_pos.mpr ⟨x, Finset.mem_sdiff.mpr ⟨hxu, hxe⟩⟩
    omega
  | succ k ih =>
    intro e p hk
    rw [expandLoopFuel]
    by_cases hc : expandStep history_dict trans_dict p \ e = ∅
    · exact ⟨e, by rw [if_pos hc]⟩
    · rw [if_neg hc]
      apply ih
      obtain ⟨x, hx⟩ := Finset.nonempty_iff_ne_empty.mpr hc
      have hxs := (Finset.mem_sdiff.mp hx).1
      have hxe := (Finset.mem_sdiff.mp hx).2
      have hxu := expandStep_subset_values history_dict trans_dict p hxs
      have hlt :
          ((RelMap.values trans_dict ∪ RelMap.values history_dict) \
              (e ∪ (expandStep history_dict trans_dict p \ e))).card <
          ((RelMap.values trans_dict ∪ RelMap.values history_dict) \ e).card := by
        apply Finset.card_lt_card
        constructor
        · intro y hy
          rw [Finset.mem_sdiff] at hy ⊢
          exact ⟨hy.1, fun hye => hy.2 (Finset.mem_union_left _ hye)⟩
        · intro hsub
          have hxmem :
              x ∈ (RelMap.values trans_dict ∪ RelMap.values history_dict) \ e :=
            Finset.mem_sdiff.mpr ⟨hxu, hxe⟩
          have := hsub hxmem
          rw [Finset.mem_sdiff] at this
          exact this.2 (Finset.mem_union_right _ hx)
      omega

/-- The well-founded loop is reached by the fuelled loop at some finite fuel. -/
lemma expandLoop_spec (history_dict trans_dict : RelMap) (expanded to_process : Finset Code) :
    ∃ n, expandLoopFuel history_dict trans_dict n expanded to_process =
      some (expandLoop history_dict trans_dict expanded to_process) := by
  obtain ⟨R, hR⟩ := expandLoopFuel_terminates history_dict trans_dict
    ((RelMap.values trans_dict ∪ RelMap.values history_dict) \ expanded).card
    expanded to_process (le_refl _)
  exact ⟨_, by rw [hR, expandLoopFuel_sound _ _ _ _ _ _ hR]⟩

/-- Monotonicity of the fuelled loop: the entering `expanded` set is contained
in the result. -/
lemma expandLoopFuel_mono (history_dict trans_dict : RelMap) :
    ∀ (n : Nat) (expanded to_process R : Finset Code),
      expandLoopFuel history_dict trans_dict n expanded to_process = some R →
      expanded ⊆ R := by
  intro n
  induction n with
  | zero => intro e p R h; simp [expandLoopFuel] at h
  | succ n ih =>
    intro e p R h
    rw [expandLoopFuel] at h
    by_cases hc : expandStep history_dict trans_dict p \ e = ∅
    · rw [if_pos hc] at h
      exact Option.some.inj h ▸ subset_refl e
    · rw [if_neg hc] at h
      exact subset_trans Finset.subset_union_left (ih _ _ _ h)

/-- Closedness invariant of the fuelled loop: if the frontier is inside the
expanded set and every already-processed code (those of `expanded` not in the
frontier) has its step inside `expanded`, then the final result is closed under
the step function. -/
lemma expandLoopFuel_closed (history_dict trans_dict : RelMap) :
    ∀ (n : Nat) (expanded to_process R : Finset Code),
      expandLoopFuel history_dict trans_dict n expanded to_process = some R →
      to_process ⊆ expanded →
      expandStep history_dict trans_dict (expanded \ to_process) ⊆ expanded →
      expandStep history_dict trans_dict R ⊆ R := by
  intro n
  induction n with
  | zero => intro e p R h; simp [expandLoopFuel] at h
  | succ n ih =>
    intro e p R h hpe hdone
    rw [expandLoopFuel] at h
    have hsplit : expandStep history_dict trans_dict e ⊆
        expandStep history_dict trans_dict (e \ p) ∪
          expandStep history_dict trans_dict p := by
      have : e ⊆ (e \ p) ∪ p := by
        rw [Finset.sdiff_union_of_subset hpe]
      calc expandStep history_dict trans_dict e
          ⊆ expandStep history_dict trans_dict ((e \ p) ∪ p) :=
            expandStep_mono _ _ this
        _ = _ := expandStep_union _ _ _ _
    by_cases hc : expandStep history_dict trans_dict p \ e = ∅
    · rw [if_pos hc] at h
      obtain rfl : e = R := Option.some.inj h
      have hstep_p : expandStep history_dict trans_dict p ⊆ e :=
        (Finset.sdiff_eq_empty_iff_subset).mp hc
      exact subset_trans hsplit (Finset.union_subset hdone hstep_p)
    · rw [if_neg hc] at h
      apply ih _ _ _ h Finset.subset_union_right
      have hmem : (e ∪ (expandStep history_dict trans_dict p \ e)) \
          (expandStep history_dict trans_dict p \ e) ⊆ e := by
        intro y hy
        rw [Finset.mem_sdiff, Finset.mem_union] at hy
        rcases hy.1 with hye | hynew
        · exact hye
        · exact absurd hynew hy.2
      have hstep_p : expandStep history_dict trans_dict p ⊆
          e ∪ (expandStep history_dict trans_dict p \ e) := by
        intro y hy
        by_cases hye : y ∈ e
        · exact Finset.mem_union_left _ hye
        · exact Finset.mem_union_right _ (Finset.mem_sdiff.mpr ⟨hy, hye⟩)
      calc expandStep history_dict trans_dict
            ((e ∪ (expandStep history_dict trans_dict p \ e)) \
              (expandStep history_dict trans_dict p \ e))
          ⊆ expandStep history_dict trans_dict e := expandStep_mono _ _ hmem
        _ ⊆ expandStep history_dict trans_dict (e \ p) ∪
              expandStep history_dict trans_dict p := hsplit
        _ ⊆ e ∪ (expandStep history_dict trans_dict p \ e) := by
            apply Finset.union_subset
            · exact subset_trans hdone Finset.subset_union_left
            · exact hstep_p

/-- The fuelled loop stays inside any step-closed superset of its state. -/
lemma expandLoopFuel_subset_closed (history_dict trans_dict : RelMap)
    (S : Finset Code) (hS : expandStep history_dict trans_dict S ⊆ S) :
    ∀ (n : Nat) (expanded to_process R : Finset Code),
      expandLoopFuel history_dict trans_dict n expanded to_process = some R →
      expanded ⊆ S → to_process ⊆ S → R ⊆ S := by
  intro n
  induction n with
  | zero => intro e p R h; simp [expandLoopFuel] at h
  | succ n ih =>
    intro e p R h heS hpS
    rw [expandLoopFuel] at h
    by_cases hc : expandStep history_dict trans_dict p \ e = ∅
    · rw [if_pos hc] at h
      exact Option.some.inj h ▸ heS
    · rw [if_neg hc] at h
      have hnewS : expandStep history_dict trans_dict p \ e ⊆ S :=
        subset_trans (Finset.sdiff_subset)
          (subset_trans (expandStep_mono _ _ hpS) hS)
      exact ih _ _ _ h (Finset.union_subset heS hnewS) hnewS

lemma justifies_mono (history_dict trans_dict : RelMap) {S S' : Finset Code}
    {x : Code} (hss : S ⊆ S') (h : justifies history_dict trans_dict S x) :
    justifies history_dict trans_dict S' x := by
  obtain ⟨p, hp, hpx, ch, hch, hx⟩ := h
  exact ⟨p, hss hp, hpx, ch, hch, hx⟩

/-- Soundness invariant of the fuelled loop: if every code of the expanded set
is in the base `B` or justified by the expanded set, the same holds of the
final result. -/
lemma expandLoopFuel_justified (history_dict trans_dict : RelMap) (B : Finset Code) :
    ∀ (n : Nat) (expanded to_process R : Finset Code),
      expandLoopFuel history_dict trans_dict n expanded to_process = some R →
      to_process ⊆ expanded →
      (∀ x ∈ expanded, x ∈ B ∨ justifies history_dict trans_dict expanded x) →
      ∀ x ∈ R, x ∈ B ∨ justifies history_dict trans_dict R x := by
  intro n
  induction n with
  | zero => intro e p R h; simp [expandLoopFuel] at h
  | succ n ih =>
    intro e p R h hpe hinv
    rw [expandLoopFuel] at h
    by_cases hc : expandStep history_dict trans_dict p \ e = ∅
    · rw [if_pos hc] at h
      exact Option.some.inj h ▸ hinv
    · rw [if_neg hc] at h
      apply ih _ _ _ h Finset.subset_union_right
      intro x hx
      rw [Finset.mem_union] at hx
      rcases hx with hxe | hxnew
      · rcases hinv x hxe with hB | hJ
        · exact Or.inl hB
        · exact Or.inr (justifies_mono _ _ Finset.subset_union_left hJ)
      · have hxs := (Finset.mem_sdiff.mp hxnew).1
        have hxe := (Finset.mem_sdiff.mp hxnew).2
        simp only [expandStep, Finset.mem_biUnion] at hxs
        obtain ⟨cur, hcur, ch, hch, hx⟩ := hxs
        refine Or.inr ⟨cur, Finset.mem_union_left _ (hpe hcur), ?_, ch, hch, ?_⟩
        · intro hcx
          exact hxe (hcx ▸ hpe hcur)
        · exact Finset.mem_insert.mp hx

/-- Evaluation bridge: a concrete run of the fuelled loop from the base set
computes `expand_codes_for_concept`. -/
lemma expand_eval (code : Code) (history_dict trans_dict : RelMap) (n : Nat)
    (R : Finset Code)
    (h : expandLoopFuel history_dict trans_dict n
          (insert code (RelMap.get history_dict code))
          (insert code (RelMap.get history_dict code)) = some R) :
    expand_codes_for_concept code history_dict trans_dict = R := by
  unfold expand_codes_for_concept
  exact expandLoopFuel_sound _ _ _ _ _ _ h

lemma expandLoop_mono (history_dict trans_dict : RelMap)
    (expanded to_process : Finset Code) :
    expanded ⊆ expandLoop history_dict trans_dict expanded to_process := by
  obtain ⟨n, hn⟩ := expandLoop_spec history_dict trans_dict expanded to_process
  exact expandLoopFuel_mono _ _ n _ _ _ hn

lemma expandLoop_closed (history_dict trans_dict : RelMap)
    (expanded to_process : Finset Code) (hpe : to_process ⊆ expanded)
    (hdone : expandStep history_dict trans_dict (expanded \ to_process) ⊆ expanded) :
    expandStep history_dict trans_dict
        (expandLoop history_dict trans_dict expanded to_process) ⊆
      expandLoop history_dict trans_dict expanded to_process := by
  obtain ⟨n, hn⟩ := expandLoop_spec history_dict trans_dict expanded to_process
  exact expandLoopFuel_closed _ _ n _ _ _ hn hpe hdone

lemma expandLoop_subset_closed (history_dict trans_dict : RelMap)
    (S expanded to_process : Finset Code)
    (hS : expandStep history_dict trans_dict S ⊆ S)
    (heS : expanded ⊆ S) (hpS : to_process ⊆ S) :
    expandLoop history_dict trans_dict expanded to_process ⊆ S := by
  obtain ⟨n, hn⟩ := expandLoop_spec history_dict trans_dict expanded to_process
  exact expandLoopFuel_subset_closed _ _ S hS n _ _ _ hn heS hpS

/-- The base set `{code} ∪ history_dict.get(code, ∅)` is contained in the
result of `expand_codes_for_concept`. -/
lemma base_subset_expand (code : Code) (history_dict trans_dict : RelMap) :
    insert code (RelMap.get history_dict code) ⊆
      expand_codes_for_concept code history_dict trans_dict :=
  expandLoop_mono history_dict trans_dict _ _

lemma mem_expand_self (code : Code) (history_dict trans_dict : RelMap) :
    code ∈ expand_codes_for_concept code history_dict trans_dict :=
  base_subset_expand code history_dict trans_dict (Finset.mem_insert_self _ _)

/-- The result of `expand_codes_for_concept` is closed under the loop body:
children of result codes, and history replacements of such children, are in
the result. -/
lemma expand_closed (code : Code) (history_dict trans_dict : RelMap) :
    expandStep history_dict trans_dict
        (expand_codes_for_concept code history_dict trans_dict) ⊆
      expand_codes_for_concept code history_dict trans_dict := by
  unfold expand_codes_for_concept
  apply expandLoop_closed _ _ _ _ (subset_refl _)
  rw [Finset.sdiff_self, expandStep_empty]
  exact Finset.empty_subset _

/-- The result of `expand_codes_for_concept` stays inside any step-closed set
containing the base set. -/
lemma expand_subset_closed (code : Code) (history_dict trans_dict : RelMap)
    (S : Finset Code) (hS : expandStep history_dict trans_dict S ⊆ S)
    (hbase : insert code (RelMap.get history_dict code) ⊆ S) :
    expand_codes_for_concept code history_dict trans_dict ⊆ S :=
  expandLoop_subset_closed history_dict trans_dict S _ _ hS hbase hbase

/-- A code that appears as key of no row has the empty lookup set. -/
lemma RelMap.get_eq_empty_of_absent (m : RelMap) (c : Code)
    (h : ∀ p ∈ m, p.1 ≠ c) : RelMap.get m c = ∅ := by
  have hfil : m.filter (fun p => p.1 == c) = [] := by
    rw [List.filter_eq_nil_iff]
    intro p hp
    simpa using h p hp
  simp [RelMap.get, hfil]

/-- Every seed is contained in the expansion of its seed set. -/
lemma subset_expand_union (S : Finset Code) (history_dict trans_dict : RelMap) :
    S ⊆ expand_union S history_dict trans_dict := by
  intro c hc
  exact Finset.mem_biUnion.mpr ⟨c, hc, mem_expand_self c _ _⟩

/-- The expansion of a seed set is closed under the loop body. -/
lemma expand_union_closed (S : Finset Code) (history_dict trans_dict : RelMap) :
    expandStep history_dict trans_dict (expand_union S history_dict trans_dict) ⊆
      expand_union S history_dict trans_dict := by
  intro x hx
  simp only [expandStep, Finset.mem_biUnion] at hx
  obtain ⟨cur, hcur, ch, hch, hxch⟩ := hx
  obtain ⟨c, hcS, hcur⟩ := Finset.mem_biUnion.mp hcur
  have hxc : x ∈ expand_codes_for_concept c history_dict trans_dict := by
    apply expand_closed
    simp only [expandStep, Finset.mem_biUnion]
    exact ⟨cur, hcur, ch, hch, hxch⟩
  exact Finset.mem_biUnion.mpr ⟨c, hcS, hxc⟩

/-- Claim C4 (confirmed): for every seed code and every pair of finite relation
maps — cycles allowed in either relation — the fixpoint loop of expand
terminates: some finite fuel makes the fuelled loop, started from the base set
exactly as `expand_codes_for_concept` starts, finish with the result of the
unbounded loop. -/
theorem expand_terminates : ∀ (code : Code) (history_dict trans_dict : RelMap),
    ∃ n, expandLoopFuel history_dict trans_dict n
      (insert code (RelMap.get history_dict code))
      (insert code (RelMap.get history_dict code)) =
      some (expand_codes_for_concept code history_dict trans_dict) := by
  intro code history_dict trans_dict
  unfold expand_codes_for_concept
  exact expandLoop_spec _ _ _ _

/-- Claim C5 (confirmed): hierarchy completeness — for every seed code and
every pair of relation maps, every child of a code of the returned set is in
the returned set. -/
theorem hierarchy_completeness (code : Code) (history_dict trans_dict : RelMap)
    (c x : Code) (hc : c ∈ expand_codes_for_concept code history_dict trans_dict)
    (hx : x ∈ RelMap.get trans_dict c) :
    x ∈ expand_codes_for_concept code history_dict trans_dict := by
  apply expand_closed code history_dict trans_dict
  simp only [expandStep, Finset.mem_biUnion]
  exact ⟨c, hc, x, hx, Finset.mem_insert_self _ _⟩

/-- Witness for claim C5 at a concrete input: with hierarchy A→B, the code A
is in the closure of seed A, B is a child of A, and B is in the closure. -/
theorem hierarchy_completeness_witness :
    ("A" ∈ expand_codes_for_concept "A" [] [("A", "B")] ∧
      "B" ∈ RelMap.get [("A", "B")] "A") ∧
    "B" ∈ expand_codes_for_concept "A" [] [("A", "B")] := by
  have hE : expand_codes_for_concept "A" [] [("A", "B")] = {"A", "B"} :=
    expand_eval "A" [] [("A", "B")] 3 {"A", "B"} (by decide)
  have hA : "A" ∈ expand_codes_for_concept "A" [] [("A", "B")] := by
    rw [hE]; decide
  have hB : "B" ∈ RelMap.get [("A", "B")] "A" := by decide
  exact ⟨⟨hA, hB⟩, hierarchy_completeness "A" [] [("A", "B")] "A" "B" hA hB⟩

/-- Claim C6 (confirmed): with hierarchy edges A→B and B2→C and redirect
B→B2, expanding seed A returns exactly the four codes A, B, B2, C — the
replacement B2 of the child B surfaces in the same step and its own child C
is explored. -/
theorem interleaved_redirect_children_discovered :
    expand_codes_for_concept "A" [("B", "B2")] [("A", "B"), ("B2", "C")] =
      {"A", "B", "B2", "C"} :=
  expand_eval "A" [("B", "B2")] [("A", "B"), ("B2", "C")] 4
    {"A", "B", "B2", "C"} (by decide)

/-- Claim C7 (confirmed): a seed code that is key of no row of either relation
expands to exactly the singleton of itself; absence of an entry is a normal
terminal condition, not a failure (the model is total). -/
theorem missing_code_singleton (code : Code) (history_dict trans_dict : RelMap)
    (hh : ∀ p ∈ history_dict, p.1 ≠ code) (ht : ∀ p ∈ trans_dict, p.1 ≠ code) :
    expand_codes_for_concept code history_dict trans_dict = {code} := by
  have hgh : RelMap.get history_dict code = ∅ :=
    RelMap.get_eq_empty_of_absent _ _ hh
  have hgt : RelMap.get trans_dict code = ∅ :=
    RelMap.get_eq_empty_of_absent _ _ ht
  have hstep : expandStep history_dict trans_dict {code} = ∅ := by
    simp [expandStep, hgt]
  have h1 : expandLoopFuel history_dict trans_dict 1 {code} {code} = some {code} := by
    rw [expandLoopFuel, if_pos (by rw [hstep]; exact Finset.empty_sdiff _)]
  have hbase : insert code (RelMap.get history_dict code) = {code} := by
    rw [hgh]
    simp
  unfold expand_codes_for_concept
  rw [hbase]
  exact expandLoopFuel_sound _ _ 1 _ _ _ h1

/-- Witness for claim C7 at a concrete input: the code A appears as key of no
row of either map and expands to exactly the singleton of A. -/
theorem missing_code_singleton_witness :
    ((∀ p ∈ ([("B", "B2")] : RelMap), p.1 ≠ "A") ∧
      (∀ p ∈ ([("C", "D")] : RelMap), p.1 ≠ "A")) ∧
    expand_codes_for_concept "A" [("B", "B2")] [("C", "D")] = {"A"} := by
  refine ⟨⟨by decide, by decide⟩,
    missing_code_singleton "A" [("B", "B2")] [("C", "D")] (by decide) (by decide)⟩

/-- Claim C8 (confirmed): for every seed and every pair of relation maps the
returned set contains the seed and every direct redirect of the seed; in
particular, with redirect A→A2 and an empty hierarchy, expanding seed A
returns exactly the pair A, A2. -/
theorem base_set_redirects :
    (∀ (code : Code) (history_dict trans_dict : RelMap),
      insert code (RelMap.get history_dict code) ⊆
        expand_codes_for_concept code history_dict trans_dict) ∧
    expand_codes_for_concept "A" [("A", "A2")] [] = {"A", "A2"} := by
  constructor
  · exact fun code history_dict trans_dict =>
      base_subset_expand code history_dict trans_dict
  · exact expand_eval "A" [("A", "A2")] [] 2 {"A", "A2"} (by decide)

/-- Claim C9 (confirmed): monotonicity of the fixpoint loop — the expanded set
entering any iteration of the loop is contained in the final result, so no
code is ever removed once added. -/
theorem expanded_monotone (history_dict trans_dict : RelMap)
    (expanded to_process : Finset Code) :
    expanded ⊆ expandLoop history_dict trans_dict expanded to_process :=
  expandLoop_mono history_dict trans_dict expanded to_process

/-- Claim C10 (confirmed): soundness — every element of the returned set is
the seed itself, a direct redirect of the seed, or a child of some other
element of the returned set, or a direct redirect of such a child. -/
theorem expand_sound (code : Code) (history_dict trans_dict : RelMap) (x : Code)
    (hx : x ∈ expand_codes_for_concept code history_dict trans_dict) :
    x = code ∨ x ∈ RelMap.get history_dict code ∨
      ∃ p ∈ expand_codes_for_concept code history_dict trans_dict, p ≠ x ∧
        ∃ ch ∈ RelMap.get trans_dict p,
          (x = ch ∨ x ∈ RelMap.get history_dict ch) := by
  unfold expand_codes_for_concept at hx ⊢
  obtain ⟨n, hn⟩ := expandLoop_spec history_dict trans_dict
    (insert code (RelMap.get history_dict code))
    (insert code (RelMap.get history_dict code))
  have hres := expandLoopFuel_justified history_dict trans_dict
    (insert code (RelMap.get history_dict code)) n _ _ _ hn (subset_refl _)
    (fun y hy => Or.inl hy) x hx
  rcases hres with hB | hJ
  · rcases Finset.mem_insert.mp hB with rfl | hB
    · exact Or.inl rfl
    · exact Or.inr (Or.inl hB)
  · obtain ⟨p, hp, hpx, ch, hch, hxch⟩ := hJ
    exact Or.inr (Or.inr ⟨p, hp, hpx, ch, hch, hxch⟩)

/-- Witness for claim C10 at a concrete input: B is in the closure of seed A
under hierarchy A→B, and it is justified as a child of the element A. -/
theorem expand_sound_witness :
    "B" ∈ expand_codes_for_concept "A" [] [("A", "B")] ∧
    ("B" = "A" ∨ "B" ∈ RelMap.get [] "A" ∨
      ∃ p ∈ expand_codes_for_concept "A" [] [("A", "B")], p ≠ "B" ∧
        ∃ ch ∈ RelMap.get [("A", "B")] p,
          ("B" = ch ∨ "B" ∈ RelMap.get [] ch)) := by
  have hE : expand_codes_for_concept "A" [] [("A", "B")] = {"A", "B"} :=
    expand_eval "A" [] [("A", "B")] 3 {"A", "B"} (by decide)
  have hB : "B" ∈ expand_codes_for_concept "A" [] [("A", "B")] := by
    rw [hE]; decide
  exact ⟨hB, expand_sound "A" [] [("A", "B")] "B" hB⟩

/-- Claim C1 counterexample: with redirects A→A2 and A2→A3 and an empty
hierarchy, the returned set contains A2, the redirect set of A2 is nonempty
(it contains A3), yet A3 is not in the returned set — redirect chains through
codes reached only as redirect targets are not followed. -/
theorem redirect_target_redirect_missed :
    "A2" ∈ expand_codes_for_concept "A" [("A", "A2"), ("A2", "A3")] [] ∧
    "A3" ∈ RelMap.get [("A", "A2"), ("A2", "A3")] "A2" ∧
    "A3" ∉ expand_codes_for_concept "A" [("A", "A2"), ("A2", "A3")] [] := by
  have hE : expand_codes_for_concept "A" [("A", "A2"), ("A2", "A3")] [] =
      {"A", "A2"} :=
    expand_eval "A" [("A", "A2"), ("A2", "A3")] [] 2 {"A", "A2"} (by decide)
  rw [hE]
  exact ⟨by decide, by decide, by decide⟩

/-- Claim C1 (corrected): redirect completeness holds for the seed and for
every code of the returned set that is a direct child of a code of the
returned set — for such a code every direct redirect of it is in the set.
Codes reached only as redirect targets are not covered (the counterexample
above shows their redirects can be missing). -/
theorem redirect_completeness_for_seed_and_children (code : Code)
    (history_dict trans_dict : RelMap) (c : Code)
    (hc : c ∈ expand_codes_for_concept code history_dict trans_dict)
    (hj : c = code ∨
      ∃ p ∈ expand_codes_for_concept code history_dict trans_dict,
        c ∈ RelMap.get trans_dict p) :
    RelMap.get history_dict c ⊆
      expand_codes_for_concept code history_dict trans_dict := by
  rcases hj with rfl | ⟨p, hp, hchild⟩
  · exact subset_trans (Finset.subset_insert _ _) (base_subset_expand _ _ _)
  · intro x hx
    apply expand_closed code history_dict trans_dict
    simp only [expandStep, Finset.mem_biUnion]
    exact ⟨p, hp, c, hchild, Finset.mem_insert.mpr (Or.inr hx)⟩

/-- Witness for corrected claim C1 at a concrete input: with hierarchy A→B and
redirect B→B2, the code B is in the closure of seed A and is a child of A,
and its redirect set is contained in the closure. -/
theorem redirect_completeness_for_seed_and_children_witness :
    ("B" ∈ expand_codes_for_concept "A" [("B", "B2")] [("A", "B")] ∧
      ("B" = "A" ∨
        ∃ p ∈ expand_codes_for_concept "A" [("B", "B2")] [("A", "B")],
          "B" ∈ RelMap.get [("A", "B")] p)) ∧
    RelMap.get [("B", "B2")] "B" ⊆
      expand_codes_for_concept "A" [("B", "B2")] [("A", "B")] := by
  have hE : expand_codes_for_concept "A" [("B", "B2")] [("A", "B")] =
      {"A", "B", "B2"} :=
    expand_eval "A" [("B", "B2")] [("A", "B")] 3 {"A", "B", "B2"} (by decide)
  have hB : "B" ∈ expand_codes_for_concept "A" [("B", "B2")] [("A", "B")] := by
    rw [hE]; decide
  have hA : "A" ∈ expand_codes_for_concept "A" [("B", "B2")] [("A", "B")] := by
    rw [hE]; decide
  have hj : "B" = "A" ∨
      ∃ p ∈ expand_codes_for_concept "A" [("B", "B2")] [("A", "B")],
        "B" ∈ RelMap.get [("A", "B")] p :=
    Or.inr ⟨"A", hA, by decide⟩
  exact ⟨⟨hB, hj⟩,
    redirect_completeness_for_seed_and_children "A" [("B", "B2")] [("A", "B")] "B" hB hj⟩

/-- Claim C3 counterexample: with redirects A→A2 and A2→A3 and an empty
hierarchy, expanding the output of an expansion of seed set A grows the set
(A3 appears), so the closure is not a fixpoint of re-expansion. -/
theorem expand_not_idempotent :
    expand_union (expand_union {"A"} [("A", "A2"), ("A2", "A3")] [])
        [("A", "A2"), ("A2", "A3")] [] ≠
      expand_union {"A"} [("A", "A2"), ("A2", "A3")] [] := by
  have h1 : expand_codes_for_concept "A" [("A", "A2"), ("A2", "A3")] [] =
      {"A", "A2"} :=
    expand_eval "A" [("A", "A2"), ("A2", "A3")] [] 2 {"A", "A2"} (by decide)
  have h2 : expand_codes_for_concept "A2" [("A", "A2"), ("A2", "A3")] [] =
      {"A2", "A3"} :=
    expand_eval "A2" [("A", "A2"), ("A2", "A3")] [] 2 {"A2", "A3"} (by decide)
  have hu1 : expand_union {"A"} [("A", "A2"), ("A2", "A3")] [] = {"A", "A2"} := by
    unfold expand_union
    rw [Finset.singleton_biUnion, h1]
  have hu2 : expand_union {"A", "A2"} [("A", "A2"), ("A2", "A3")] [] =
      {"A", "A2", "A3"} := by
    unfold expand_union
    rw [show ({"A", "A2"} : Finset Code) = insert "A" {"A2"} from rfl,
      Finset.biUnion_insert, Finset.singleton_biUnion, h1, h2]
    decide
  rw [hu1, hu2]
  decide

/-- Claim C3 (corrected): re-expanding the output of an expansion never loses
a code (the output is contained in its re-expansion), and it yields exactly
the same set whenever every code of the output already has all its direct
redirects in the output; without that proviso the set can grow, as the
counterexample above shows. -/
theorem reexpansion_grows_and_fixes_when_redirect_closed
    (seeds : Finset Code) (history_dict trans_dict : RelMap) :
    expand_union seeds history_dict trans_dict ⊆
      expand_union (expand_union seeds history_dict trans_dict)
        history_dict trans_dict ∧
    ((∀ c ∈ expand_union seeds history_dict trans_dict,
        RelMap.get history_dict c ⊆ expand_union seeds history_dict trans_dict) →
      expand_union (expand_union seeds history_dict trans_dict)
          history_dict trans_dict =
        expand_union seeds history_dict trans_dict) := by
  constructor
  · exact subset_expand_union _ _ _
  · intro hredir
    apply Finset.Subset.antisymm
    · intro x hx
      obtain ⟨c, hcT, hxc⟩ := Finset.mem_biUnion.mp hx
      have hsub : expand_codes_for_concept c history_dict trans_dict ⊆
          expand_union seeds history_dict trans_dict := by
        apply expand_subset_closed
        · exact expand_union_closed _ _ _
        · intro y hy
          rcases Finset.mem_insert.mp hy with rfl | hy
          · exact hcT
          · exact hredir c hcT hy
      exact hsub hxc
    · exact subset_expand_union _ _ _

/-- Witness for corrected claim C3 at a concrete input: with empty relations
and seed set containing only A, the output is redirect-closed and its
re-expansion both contains it and equals it. -/
theorem reexpansion_grows_and_fixes_when_redirect_closed_witness :
    expand_union {"A"} [] [] ⊆ expand_union (expand_union {"A"} [] []) [] [] ∧
    expand_union (expand_union {"A"} [] []) [] [] = expand_union {"A"} [] [] := by
  have h := reexpansion_grows_and_fixes_when_redirect_closed {"A"} [] []
  refine ⟨h.1, h.2 ?_⟩
  intro c hc x hx
  simp only [RelMap.get, List.filter_nil, List.map_nil, List.toFinset_nil] at hx
  exact absurd hx (Finset.not_mem_empty x)

/-- Claim C2 counterexample: a cluster with two SNOMED seed rows A and B,
under empty relations, is emitted as the closure of A only, not as the union
of the closures of A and of B. -/
theorem cluster_second_seed_ignored :
    cluster_codes [⟨"SNOMED CT", "X", "A"⟩, ⟨"SNOMED CT", "X", "B"⟩] "X" [] [] ≠
      spec_cluster_union [⟨"SNOMED CT", "X", "A"⟩, ⟨"SNOMED CT", "X", "B"⟩]
        "X" [] [] := by
  have hA : expand_codes_for_concept "A" [] [] = {"A"} :=
    expand_eval "A" [] [] 1 {"A"} (by decide)
  have hB : expand_codes_for_concept "B" [] [] = {"B"} :=
    expand_eval "B" [] [] 1 {"B"} (by decide)
  have hrows : cluster_rows
      [⟨"SNOMED CT", "X", "A"⟩, ⟨"SNOMED CT", "X", "B"⟩] "X" =
      [⟨"SNOMED CT", "X", "A"⟩, ⟨"SNOMED CT", "X", "B"⟩] := by decide
  have h1 : cluster_codes
      [⟨"SNOMED CT", "X", "A"⟩, ⟨"SNOMED CT", "X", "B"⟩] "X" [] [] = {"A"} := by
    unfold cluster_codes
    rw [hrows]
    show (if ("A" : String) = "" then (∅ : Finset Code)
      else expand_codes_for_concept (pythonStrip "A") [] []) = {"A"}
    rw [if_neg (by decide), show pythonStrip "A" = "A" from by decide, hA]
  have h2 : spec_cluster_union
      [⟨"SNOMED CT", "X", "A"⟩, ⟨"SNOMED CT", "X", "B"⟩] "X" [] [] =
      {"A", "B"} := by
    unfold spec_cluster_union
    rw [hrows]
    show expand_codes_for_concept (pythonStrip "A") [] [] ∪
        (expand_codes_for_concept (pythonStrip "B") [] [] ∪ ∅) = {"A", "B"}
    rw [show pythonStrip "A" = "A" from by decide,
      show pythonStrip "B" = "B" from by decide, hA, hB]
    decide
  rw [h1, h2]
  decide

/-- Claim C2 (corrected): for a cluster whose first SNOMED row carries a
nonempty code, the emitted code set equals the closure of that first seed
alone — seeds of later rows of the cluster are ignored — and is therefore
contained in (but in general not equal to) the union of the per-seed
closures. -/
theorem cluster_codes_first_seed_closure (rows : List CsvRow) (cluster_id : String)
    (history_dict trans_dict : RelMap) (r : CsvRow) (rest : List CsvRow)
    (hrows : cluster_rows rows cluster_id = r :: rest) (hcode : r.code ≠ "") :
    cluster_codes rows cluster_id history_dict trans_dict =
      expand_codes_for_concept (pythonStrip r.code) history_dict trans_dict ∧
    cluster_codes rows cluster_id history_dict trans_dict ⊆
      spec_cluster_union rows cluster_id history_dict trans_dict := by
  have h1 : cluster_codes rows cluster_id history_dict trans_dict =
      expand_codes_for_concept (pythonStrip r.code) history_dict trans_dict := by
    unfold cluster_codes
    rw [hrows]
    exact if_neg hcode
  refine ⟨h1, ?_⟩
  rw [h1]
  unfold spec_cluster_union
  rw [hrows]
  intro x hx
  simp only [List.map_cons, List.foldr_cons]
  exact Finset.mem_union_left _ hx

/-- Witness for corrected claim C2 at a concrete input: the two-row cluster of
the counterexample has first row with code A, the emitted set is the closure
of A, and it is contained in the union of the per-seed closures. -/
theorem cluster_codes_first_seed_closure_witness :
    (cluster_rows [⟨"SNOMED CT", "X", "A"⟩, ⟨"SNOMED CT", "X", "B"⟩] "X" =
        ⟨"SNOMED CT", "X", "A"⟩ :: [⟨"SNOMED CT", "X", "B"⟩] ∧
      (CsvRow.mk "SNOMED CT" "X" "A").code ≠ "") ∧
    (cluster_codes [⟨"SNOMED CT", "X", "A"⟩, ⟨"SNOMED CT", "X", "B"⟩]
        "X" [] [] =
      expand_codes_for_concept (pythonStrip (CsvRow.mk "SNOMED CT" "X" "A").code) [] [] ∧
    cluster_codes [⟨"SNOMED CT", "X", "A"⟩, ⟨"SNOMED CT", "X", "B"⟩]
        "X" [] [] ⊆
      spec_cluster_union [⟨"SNOMED CT", "X", "A"⟩, ⟨"SNOMED CT", "X", "B"⟩]
        "X" [] []) := by
  refine ⟨⟨by decide, by decide⟩, ?_⟩
  exact cluster_codes_first_seed_closure
    [⟨"SNOMED CT", "X", "A"⟩, ⟨"SNOMED CT", "X", "B"⟩] "X" [] []
    ⟨"SNOMED CT", "X", "A"⟩ [⟨"SNOMED CT", "X", "B"⟩] (by decide) (by decide)
